import Mathlib

/- Verification of the SiSy agent response-interpretation core.

   Shallow embedding of the response-handling logic of `backend/agent.py`
   (class SiSyAgent: `_strip_thinking_tags`, `_extract_actions_from_tool_calls`,
   `_execute_tool`, `process_message`) and of the fenced-code-block candidate
   extraction of `eval/metrics.py` (LLMJudgeMetric.score).

   Free-form text is embedded as `List Char`; Python dict keys and tool names
   as `String`; JSON-ish argument values as the inductive `Value`; the model
   invocation as an oracle `List Msg -> Reply`.  `process_message` is embedded
   on its no-image path (`image_file=None`) and instrumented with the number
   of model invocations it performs. -/

set_option maxRecDepth 10000

namespace Agent

/-- Whitespace characters removed by Python str.strip (ASCII subset). -/
def pyWhite (c : Char) : Bool :=
  c = ' ' || c = '\t' || c = '\n' || c = '\r' || c = Char.ofNat 11 || c = Char.ofNat 12

/-- Python str.strip: drop whitespace from both ends. -/
def trim (l : List Char) : List Char :=
  ((l.dropWhile pyWhite).reverse.dropWhile pyWhite).reverse

/-- Boolean test that `pat` is a prefix of `l`. -/
def isPre (pat l : List Char) : Bool :=
  l.take pat.length == pat

/-- Suffix of `l` just after the first occurrence of `pat`, if any.
    Models the scanning step of Python regex / str.split search. -/
def afterFirst (pat : List Char) : List Char → Option (List Char)
  | [] => none
  | c :: cs => if isPre pat (c :: cs) then some ((c :: cs).drop pat.length)
               else afterFirst pat cs

/-- Portion of `l` before the first occurrence of `pat` (all of `l` if absent). -/
def upToFirst (pat : List Char) : List Char → List Char
  | [] => []
  | c :: cs => if isPre pat (c :: cs) then []
               else c :: upToFirst pat cs

/-- Opening thinking marker of agent.py `_strip_thinking_tags`. -/
def openTag : List Char := "<think>".toList

/-- Closing thinking marker of agent.py `_strip_thinking_tags`. -/
def closeTag : List Char := "</think>".toList

/-- One left-to-right pass of `re.sub(r"<think>.*?</think>", "", content, flags=DOTALL)`:
    at each position, if the opening marker matches and a closing marker occurs
    later, the whole span through the first closing marker is removed and the
    scan resumes after it; otherwise the character is kept.  `fuel` bounds the
    recursion and is instantiated with the input length. -/
def stripAux : Nat → List Char → List Char
  | _, [] => []
  | 0, l => l
  | fuel + 1, c :: cs =>
    if isPre openTag (c :: cs) then
      match afterFirst closeTag ((c :: cs).drop openTag.length) with
      | some rest => stripAux fuel rest
      | none => c :: stripAux fuel cs
    else c :: stripAux fuel cs

/-- The `re.sub` call of `_strip_thinking_tags`. -/
def subThink (content : List Char) : List Char :=
  stripAux content.length content

/-- agent.py `SiSyAgent._strip_thinking_tags`: remove think spans, then strip. -/
def strip_thinking_tags (content : List Char) : List Char :=
  trim (subThink content)

/-- Whether `l` contains an opening marker with a closing marker after it,
    i.e. whether the think-span regex matches somewhere in `l`. -/
def hasSpan : List Char → Bool
  | [] => false
  | c :: cs =>
    (isPre openTag (c :: cs) && (afterFirst closeTag ((c :: cs).drop openTag.length)).isSome)
      || hasSpan cs

/-- A pattern is non-self-overlapping when no proper nonempty suffix of it is
    also one of its prefixes; such a pattern cannot match across the boundary
    of a context it is appended to. -/
def noOverlap (pat : List Char) : Bool :=
  (List.range pat.length).all fun k =>
    decide (k = 0) || decide (pat.drop k ≠ pat.take (pat.length - k))

/-- JSON-ish argument values carried by tool calls (None, str, or other). -/
inductive Value where
  | vNull : Value
  | vStr : List Char → Value
  | vInt : Int → Value
  deriving DecidableEq

/-- One LangChain tool call as consumed by `process_message`:
    name, argument mapping in insertion order, and call id. -/
structure ToolCall where
  name : String
  args : List (String × Value)
  call_id : String
  deriving DecidableEq

/-- An action dict produced by `_extract_actions_from_tool_calls`,
    as a key-value list in Python dict insertion order. -/
abbrev ActionDict := List (String × Value)

/-- Names of the registered tools (AGENT_TOOLS in agent.py). -/
def validToolNames : List String := ["upsert_routine_item", "upsert_profile_field"]

/-- Greedy branch of `re.search(r"(\d\x7b1,2\x7d:\d\x7b2\x7d)", v)` at one
    position: two digits, colon, two digits. -/
def matchTwoDigit : List Char → Option (List Char)
  | a :: b :: c :: d :: e :: _ =>
    if a.isDigit && b.isDigit && c = ':' && d.isDigit && e.isDigit
    then some [a, b, c, d, e] else none
  | _ => none

/-- Backtracked branch at one position: one digit, colon, two digits. -/
def matchOneDigit : List Char → Option (List Char)
  | a :: b :: c :: d :: _ =>
    if a.isDigit && b = ':' && c.isDigit && d.isDigit
    then some [a, b, c, d] else none
  | _ => none

/-- Attempt of the HH:MM pattern at the head of `l` (greedy two digits first,
    then one digit, as the regex engine backtracks). -/
def matchTimeAt (l : List Char) : Option (List Char) :=
  match matchTwoDigit l with
  | some m => some m
  | none => matchOneDigit l

/-- Leftmost HH:MM match in `l`: Python `re.search` over all start positions. -/
def searchTime : List Char → Option (List Char)
  | [] => none
  | c :: cs =>
    match matchTimeAt (c :: cs) with
    | some m => some m
    | none => searchTime cs

/-- The time-argument sanitizer inside `_extract_actions_from_tool_calls`:
    for a string value under key "time", replace it by the first HH:MM match
    when one exists, else keep it unchanged. -/
def sanitizeArg (key : String) (v : Value) : Value :=
  match v with
  | Value.vStr s =>
    if key = "time" then
      match searchTime s with
      | some m => Value.vStr m
      | none => Value.vStr s
    else Value.vStr s
  | v => v

/-- Python dict assignment `action[k] = v`: overwrite in place when the key is
    present, else append at the end. -/
def insertArg (a : ActionDict) (k : String) (v : Value) : ActionDict :=
  if a.any (fun p => p.1 = k) then a.map (fun p => if p.1 = k then (k, v) else p)
  else a ++ [(k, v)]

/-- Action built from one registered tool call: start from the dict
    containing only "type" = tool name, then insert each non-null argument in
    order, sanitizing time values. -/
def mkAction (tc : ToolCall) : ActionDict :=
  tc.args.foldl
    (fun action kv =>
      if kv.2 = Value.vNull then action
      else insertArg action kv.1 (sanitizeArg kv.1 kv.2))
    [("type", Value.vStr tc.name.toList)]

/-- agent.py `SiSyAgent._extract_actions_from_tool_calls`: skip calls whose
    name is not registered, convert the others in order. -/
def extractActions : List ToolCall → List ActionDict
  | [] => []
  | tc :: rest =>
    if validToolNames.contains tc.name then mkAction tc :: extractActions rest
    else extractActions rest

/-- Whether an argument, if present, is a string or null (the optional
    str-or-None parameters of the tool signatures). -/
def optStrOk (args : List (String × Value)) (k : String) : Bool :=
  match args.lookup k with
  | none => true
  | some Value.vNull => true
  | some (Value.vStr _) => true
  | some _ => false

/-- LangChain `tool.invoke(args)` on the two @tool functions of agent.py:
    pydantic argument validation raises (embedded as `Except.error`) when a
    required string field is missing or a field has a non-string type;
    otherwise the tool body returns its confirmation string. -/
def invokeTool (name : String) (args : List (String × Value)) : Except (List Char) (List Char) :=
  if name = "upsert_routine_item" then
    match args.lookup "title" with
    | some (Value.vStr t) =>
      if optStrOk args "time" && optStrOk args "description" && optStrOk args "id" then
        Except.ok ("Routine item \x27".toList ++ t ++ "\x27 created/updated successfully.".toList)
      else Except.error "validation error".toList
    | _ => Except.error "validation error".toList
  else if name = "upsert_profile_field" then
    match args.lookup "key", args.lookup "value" with
    | some (Value.vStr k), some (Value.vStr _) =>
      if optStrOk args "group" then
        Except.ok ("Profile field \x27".toList ++ k ++ "\x27 updated successfully.".toList)
      else Except.error "validation error".toList
    | _, _ => Except.error "validation error".toList
  else Except.error "tool not found".toList

/-- agent.py `SiSyAgent._execute_tool`: unknown names yield the fixed string,
    known tools are invoked with any exception converted to an error string. -/
def executeTool (tool_name : String) (args : List (String × Value)) : List Char :=
  if validToolNames.contains tool_name then
    match invokeTool tool_name args with
    | Except.ok r => r
    | Except.error e => "Error executing ".toList ++ tool_name.toList ++ ": ".toList ++ e
  else "Unknown tool: ".toList ++ tool_name.toList

/-- LangChain message kinds appearing in `process_message`. -/
inductive Msg where
  | system : List Char → Msg
  | human : List Char → Msg
  | ai : List Char → Msg
  | aiCalls : List Char → List ToolCall → Msg
  | toolMsg : List Char → String → Msg
  deriving DecidableEq

/-- One entry of the caller-supplied message_history: either not a mapping at
    all, or a mapping with an optional role and a text (missing or falsy text
    collapses to []). -/
inductive HistEntry where
  | notMapping : HistEntry
  | entry : Option String → List Char → HistEntry
  deriving DecidableEq

/-- The history-filtering loop body of `process_message`: skip non-mappings,
    skip empty text, produce Human/AI messages for the user/assistant roles,
    skip any other role. -/
def convertHistEntry : HistEntry → Option Msg
  | HistEntry.notMapping => none
  | HistEntry.entry role text_content =>
    if text_content = [] then none
    else if role = some "user" then some (Msg.human text_content)
    else if role = some "assistant" then some (Msg.ai text_content)
    else none

/-- Message assembly of `process_message`: system prompt first, then the
    filtered history appended one entry at a time, then the current text. -/
def buildMessages (system_prompt : List Char) (message_history : List HistEntry)
    (content : List Char) : List Msg :=
  (message_history.foldl
    (fun msgs m =>
      match convertHistEntry m with
      | some msg => msgs ++ [msg]
      | none => msgs)
    [Msg.system system_prompt]) ++ [Msg.human content]

/-- One model reply: content text plus the tool calls it carries. -/
structure Reply where
  content : List Char
  tool_calls : List ToolCall
  deriving DecidableEq

/-- The value returned by `process_message` (conversation_id elided). -/
structure AgentResult where
  assistant_text : List Char
  actions : List ActionDict
  deriving DecidableEq

/-- The tool-execution loop of `process_message`: one ToolMessage appended per
    tool call, carrying `_execute_tool`'s result and the call id. -/
def toolResultMessages (tool_calls : List ToolCall) : List Msg :=
  tool_calls.foldl
    (fun msgs tc => msgs ++ [Msg.toolMsg (executeTool tc.name tc.args) tc.call_id]) []

/-- agent.py `SiSyAgent.process_message` on the no-image path, with the model
    embedded as the oracle `llm`; the second component counts the model
    invocations performed. -/
def processMessage (llm : List Msg → Reply) (system_prompt : List Char)
    (message_history : List HistEntry) (text : List Char) : AgentResult × Nat :=
  let messages := buildMessages system_prompt message_history text
  let response := llm messages
  let actions := extractActions response.tool_calls
  let response_content := strip_thinking_tags response.content
  if response.tool_calls = [] then
    ({ assistant_text := response_content, actions := actions }, 1)
  else
    let messages2 := messages ++ [Msg.aiCalls response.content response.tool_calls]
      ++ toolResultMessages response.tool_calls
    let final_response := llm messages2
    ({ assistant_text := strip_thinking_tags final_response.content, actions := actions }, 2)

/-- The json-tagged fence marker of metrics.py. -/
def jsonFence : List Char := "```json".toList

/-- The plain fence marker of metrics.py. -/
def fence : List Char := "```".toList

/-- metrics.py fenced-block candidate extraction:
    `content.split("```json")[1].split("```")[0]` when a json-tagged fence is
    present, else `content.split("```")[1].split("```")[0]` when a plain fence
    is present, else the whole content. -/
def extractFenced (content : List Char) : List Char :=
  match afterFirst jsonFence content with
  | some rest => upToFirst fence rest
  | none =>
    match afterFirst fence content with
    | some rest => upToFirst fence rest
    | none => content

/-- Modelled from the spec: the Payload Decoder of spec section 4.3 is absent
    from the current agent revision (which uses tool calls instead of embedded
    JSON); only its fenced-block candidate extraction survives in metrics.py
    and is embedded as `extractFenced`.  `parseJson` stands for the strict
    JSON parse plus schema mapping of a candidate.  Precedence: a fenced-block
    candidate when a triple-marker is present, then the whole trimmed text
    when it starts with a brace, then the plain-text fallback with an empty
    action list. -/
def decodePayload (parseJson : List Char → Option AgentResult) (text : List Char) :
    AgentResult :=
  match (if (afterFirst fence text).isSome then parseJson (trim (extractFenced text))
         else none) with
  | some r => r
  | none =>
    match (if (trim text).head? = some (Char.ofNat 123) then parseJson (trim text)
           else none) with
    | some r => r
    | none => { assistant_text := text, actions := [] }

/-- Oracle used by concrete witnesses: first call replies with two tool calls
    (one of them hallucinated), second call replies with plain text that
    itself carries a tool call (which must be ignored). -/
def demoLLM : List Msg → Reply :=
  fun msgs =>
    if msgs = buildMessages "sys".toList [] "hi".toList then
      { content := "<think>plan</think>on it".toList
        tool_calls :=
          [ { name := "upsert_profile_field"
              args := [("key", Value.vStr "age".toList), ("value", Value.vStr "35".toList),
                       ("group", Value.vNull)]
              call_id := "c1" },
            { name := "delete_everything"
              args := [("target", Value.vStr "all".toList)]
              call_id := "c2" } ] }
    else
      { content := "<think>wrap up</think>done".toList
        tool_calls := [ { name := "upsert_profile_field", args := [], call_id := "c3" } ] }

/-- Oracle for the all-hallucinated witness: the first reply carries only an
    unregistered tool call. -/
def demoLLMBad : List Msg → Reply :=
  fun msgs =>
    if msgs = buildMessages "sys".toList [] "hi".toList then
      { content := "doing it".toList
        tool_calls := [ { name := "delete_everything", args := [], call_id := "c1" } ] }
    else
      { content := "done".toList, tool_calls := [] }

/-- Parse oracle used by the decoder witness: recognizes exactly one candidate. -/
def demoParse : List Char → Option AgentResult :=
  fun c =>
    if c = "payload".toList then some { assistant_text := "hi".toList, actions := [] }
    else none

end Agent

namespace Agent

theorem isPre_iff {pat l : List Char} : isPre pat l = true ↔ l.take pat.length = pat := by
  simp [isPre]

theorem isPre_append_self (pat y : List Char) : isPre pat (pat ++ y) = true := by
  simp [isPre, List.take_left]

theorem afterFirst_length {pat : List Char} : ∀ {l r : List Char},
    afterFirst pat l = some r → r.length + pat.length ≤ l.length := by
  intro l
  induction l with
  | nil => intro r h; simp [afterFirst] at h
  | cons c cs ih =>
    intro r h
    by_cases hp : isPre pat (c :: cs) = true
    · simp [afterFirst, hp] at h
      have hlen : pat.length ≤ cs.length + 1 := by
        have := isPre_iff.mp hp
        have h2 : ((c :: cs).take pat.length).length = pat.length := by rw [this]
        simp [List.length_take] at h2
        omega
      subst h
      simp only [List.length_drop, List.length_cons] at hlen ⊢
      omega
    · simp [afterFirst, hp] at h
      have := ih h
      simp only [List.length_cons]
      omega

theorem afterFirst_cons_none {pat : List Char} {c : Char} {cs : List Char}
    (h : afterFirst pat (c :: cs) = none) :
    isPre pat (c :: cs) = false ∧ afterFirst pat cs = none := by
  by_cases hp : isPre pat (c :: cs) = true
  · simp [afterFirst, hp] at h
  · simp [afterFirst, hp] at h
    exact ⟨by simpa using hp, h⟩

theorem afterFirst_none_drop {pat : List Char} :
    ∀ (n : Nat) {l : List Char}, afterFirst pat l = none → afterFirst pat (l.drop n) = none := by
  intro n
  induction n with
  | zero => intro l h; simpa using h
  | succ m ih =>
    intro l h
    cases l with
    | nil => simp [afterFirst]
    | cons c cs =>
      have := (afterFirst_cons_none h).2
      simpa using ih this

end Agent

namespace Agent

theorem isPre_of_append {pat x r : List Char} (hle : pat.length ≤ x.length)
    (h : isPre pat (x ++ r) = true) : isPre pat x = true := by
  rw [isPre_iff] at h ⊢
  rw [List.take_append_eq_append_take] at h
  have h0 : pat.length - x.length = 0 := by omega
  simpa [h0] using h

theorem isPre_split {pat x y : List Char} (h : isPre pat (x ++ (pat ++ y)) = true)
    (hlt : x.length < pat.length) :
    pat.drop x.length = pat.take (pat.length - x.length) := by
  have h1 := isPre_iff.mp h
  rw [List.take_append_eq_append_take, List.take_of_length_le (le_of_lt hlt)] at h1
  have h2 : pat.drop x.length = (x ++ (pat ++ y).take (pat.length - x.length)).drop x.length := by
    rw [h1]
  rw [List.drop_left] at h2
  rw [List.take_append_eq_append_take] at h2
  have h0 : pat.length - x.length - pat.length = 0 := by omega
  simpa [h0] using h2

theorem afterFirst_append_of_none {pat : List Char} (hpat : pat ≠ [])
    (hno : noOverlap pat = true) :
    ∀ {x y : List Char}, afterFirst pat x = none →
      afterFirst pat (x ++ (pat ++ y)) = some y := by
  intro x
  induction x with
  | nil =>
    intro y _
    obtain ⟨q, qs, rfl⟩ : ∃ q qs, pat = q :: qs := by
      cases pat with
      | nil => simp at hpat
      | cons q qs => exact ⟨q, qs, rfl⟩
    show afterFirst (q :: qs) (q :: (qs ++ y)) = some y
    have h : isPre (q :: qs) (q :: (qs ++ y)) = true := isPre_append_self (q :: qs) y
    have hd : (q :: (qs ++ y)).drop (q :: qs).length = y := List.drop_left (q :: qs) y
    simp [afterFirst, h, hd]
  | cons c x' ih =>
    intro y hx
    obtain ⟨hfalse, hx'⟩ := afterFirst_cons_none hx
    have hstep : isPre pat ((c :: x') ++ (pat ++ y)) = false := by
      by_contra hcon
      have htrue : isPre pat ((c :: x') ++ (pat ++ y)) = true := by
        simpa using hcon
      rcases le_or_lt pat.length (c :: x').length with hle | hlt
      · rw [isPre_of_append hle htrue] at hfalse
        exact Bool.noConfusion hfalse
      · have hdrop := isPre_split htrue hlt
        have hk : (c :: x').length ∈ List.range pat.length := by
          simp only [List.mem_range]
          exact hlt
        have hall := (List.all_eq_true.mp hno) _ hk
        simp only [Bool.or_eq_true, decide_eq_true_eq] at hall
        rcases hall with h0 | hne
        · simp at h0
        · exact hne hdrop
    show afterFirst pat (c :: (x' ++ (pat ++ y))) = some y
    rw [afterFirst]
    have hstep2 : isPre pat (c :: (x' ++ (pat ++ y))) = false := hstep
    rw [hstep2]
    simpa using ih hx'

theorem afterFirst_append_notMem {p : Char} {ps : List Char} :
    ∀ {x y : List Char}, p ∉ x →
      afterFirst (p :: ps) (x ++ ((p :: ps) ++ y)) = some y := by
  intro x
  induction x with
  | nil =>
    intro y _
    show afterFirst (p :: ps) (p :: (ps ++ y)) = some y
    rw [afterFirst]
    have h : isPre (p :: ps) (p :: (ps ++ y)) = true := isPre_append_self (p :: ps) y
    rw [h]
    simp only [if_true]
    exact congrArg some (List.drop_left (p :: ps) y)
  | cons c x' ih =>
    intro y hx
    have hc : c ≠ p := fun h => hx (h ▸ List.mem_cons_self c x')
    have hx' : p ∉ x' := fun h => hx (List.mem_cons_of_mem c h)
    have hstep : isPre (p :: ps) (c :: (x' ++ ((p :: ps) ++ y))) = false := by
      by_contra hcon
      have htrue := isPre_iff.mp (by simpa using hcon)
      simp only [List.length_cons, List.take_succ_cons] at htrue
      have hcp : c = p := by injection htrue
      exact hc hcp
    show afterFirst (p :: ps) (c :: (x' ++ ((p :: ps) ++ y))) = some y
    rw [afterFirst, hstep]
    simpa using ih hx'

theorem upToFirst_append_notMem {p : Char} {ps : List Char} :
    ∀ {x y : List Char}, p ∉ x →
      upToFirst (p :: ps) (x ++ ((p :: ps) ++ y)) = x := by
  intro x
  induction x with
  | nil =>
    intro y _
    show upToFirst (p :: ps) (p :: (ps ++ y)) = []
    rw [upToFirst]
    have h : isPre (p :: ps) (p :: (ps ++ y)) = true := isPre_append_self (p :: ps) y
    rw [h]
    simp
  | cons c x' ih =>
    intro y hx
    have hc : c ≠ p := fun h => hx (h ▸ List.mem_cons_self c x')
    have hx' : p ∉ x' := fun h => hx (List.mem_cons_of_mem c h)
    have hstep : isPre (p :: ps) (c :: (x' ++ ((p :: ps) ++ y))) = false := by
      by_contra hcon
      have htrue := isPre_iff.mp (by simpa using hcon)
      simp only [List.length_cons, List.take_succ_cons] at htrue
      have hcp : c = p := by injection htrue
      exact hc hcp
    show upToFirst (p :: ps) (c :: (x' ++ ((p :: ps) ++ y))) = c :: x'
    rw [upToFirst, hstep]
    simpa using ih hx'

end Agent

namespace Agent

theorem stripAux_nil (fuel : Nat) : stripAux fuel [] = [] := by
  cases fuel <;> rfl

theorem stripAux_cons (fuel : Nat) (c : Char) (cs : List Char) :
    stripAux (fuel + 1) (c :: cs) =
      if isPre openTag (c :: cs) then
        match afterFirst closeTag ((c :: cs).drop openTag.length) with
        | some rest => stripAux fuel rest
        | none => c :: stripAux fuel cs
      else c :: stripAux fuel cs := rfl

theorem stripAux_fuel : ∀ (fuel fuel' : Nat) (l : List Char),
    l.length ≤ fuel → l.length ≤ fuel' → stripAux fuel l = stripAux fuel' l := by
  intro fuel
  induction fuel with
  | zero =>
    intro fuel' l hl _
    have : l = [] := by
      cases l with
      | nil => rfl
      | cons c cs => simp at hl
    subst this
    simp [stripAux_nil]
  | succ f ih =>
    intro fuel' l hl hl'
    cases l with
    | nil => simp [stripAux_nil]
    | cons c cs =>
      cases fuel' with
      | zero => simp at hl'
      | succ f' =>
        rw [stripAux_cons, stripAux_cons]
        by_cases hp : isPre openTag (c :: cs) = true
        · rw [hp]
          simp only [if_true]
          cases hda : afterFirst closeTag ((c :: cs).drop openTag.length) with
          | some rest =>
            have hlen := afterFirst_length hda
            simp only [List.length_drop, List.length_cons] at hlen
            have hcl : closeTag.length = 8 := by decide
            have hol : openTag.length = 7 := by decide
            rw [hcl, hol] at hlen
            simp only [List.length_cons] at hl hl'
            exact ih f' rest (by omega) (by omega)
          | none =>
            simp only [List.length_cons] at hl hl'
            rw [ih f' cs (by omega) (by omega)]
        · simp only [Bool.not_eq_true] at hp
          rw [hp]
          simp only [Bool.false_eq_true, if_false]
          simp only [List.length_cons] at hl hl'
          rw [ih f' cs (by omega) (by omega)]

theorem subThink_cons_eq (c : Char) (cs : List Char) :
    subThink (c :: cs) =
      if isPre openTag (c :: cs) then
        match afterFirst closeTag ((c :: cs).drop openTag.length) with
        | some rest => subThink rest
        | none => c :: subThink cs
      else c :: subThink cs := by
  show stripAux (cs.length + 1) (c :: cs) = _
  rw [stripAux_cons]
  by_cases hp : isPre openTag (c :: cs) = true
  · rw [hp]
    simp only [if_true]
    cases hda : afterFirst closeTag ((c :: cs).drop openTag.length) with
    | some rest =>
      have hlen := afterFirst_length hda
      simp only [List.length_drop, List.length_cons] at hlen
      have hcl : closeTag.length = 8 := by decide
      have hol : openTag.length = 7 := by decide
      rw [hcl, hol] at hlen
      exact stripAux_fuel cs.length rest.length rest (by omega) (le_refl _)
    | none => rfl
  · simp only [Bool.not_eq_true] at hp
    rw [hp]
    simp only [Bool.false_eq_true, if_false]
    rfl

theorem subThink_removes {x : List Char} (hx : afterFirst closeTag x = none)
    (y : List Char) :
    subThink (openTag ++ x ++ (closeTag ++ y)) = subThink y := by
  have hno : noOverlap closeTag = true := by decide
  have hne : closeTag ≠ [] := by decide
  have hfind : afterFirst closeTag (x ++ (closeTag ++ y)) = some y :=
    afterFirst_append_of_none hne hno hx
  obtain ⟨c, cs, hcons⟩ : ∃ c cs, openTag ++ x ++ (closeTag ++ y) = c :: cs := by
    exact ⟨'<', "think>".toList ++ x ++ (closeTag ++ y), by simp [openTag]⟩
  have hlen : (openTag ++ x ++ (closeTag ++ y)).length = cs.length + 1 := by
    rw [hcons]; rfl
  have hpre : isPre openTag (c :: cs) = true := by
    rw [← hcons]
    have : openTag ++ x ++ (closeTag ++ y) = openTag ++ (x ++ (closeTag ++ y)) := by
      simp [List.append_assoc]
    rw [this]
    exact isPre_append_self openTag (x ++ (closeTag ++ y))
  have hdrop : (c :: cs).drop openTag.length = x ++ (closeTag ++ y) := by
    rw [← hcons]
    have : openTag ++ x ++ (closeTag ++ y) = openTag ++ (x ++ (closeTag ++ y)) := by
      simp [List.append_assoc]
    rw [this]
    exact List.drop_left openTag (x ++ (closeTag ++ y))
  rw [hcons, subThink_cons_eq, hpre]
  simp only [if_true]
  rw [hdrop, hfind]

theorem hasSpan_cons_false {c : Char} {cs : List Char} (h : hasSpan (c :: cs) = false) :
    (isPre openTag (c :: cs) = false ∨
      afterFirst closeTag ((c :: cs).drop openTag.length) = none) ∧ hasSpan cs = false := by
  rw [hasSpan] at h
  simp only [Bool.or_eq_false_iff, Bool.and_eq_false_iff] at h
  constructor
  · rcases h.1 with h1 | h1
    · exact Or.inl h1
    · right
      cases hda : afterFirst closeTag ((c :: cs).drop openTag.length) with
      | none => rfl
      | some rest => rw [hda] at h1; simp at h1
  · exact h.2

theorem subThink_id_of_no_span : ∀ {l : List Char}, hasSpan l = false → subThink l = l := by
  have main : ∀ (fuel : Nat) (l : List Char), l.length ≤ fuel → hasSpan l = false →
      stripAux fuel l = l := by
    intro fuel
    induction fuel with
    | zero =>
      intro l hl _
      cases l with
      | nil => rfl
      | cons c cs => simp at hl
    | succ f ih =>
      intro l hl hs
      cases l with
      | nil => rfl
      | cons c cs =>
        obtain ⟨h1, h2⟩ := hasSpan_cons_false hs
        simp only [List.length_cons] at hl
        rw [stripAux_cons]
        rcases h1 with h1 | h1
        · rw [h1]
          simp only [Bool.false_eq_true, if_false]
          rw [ih cs (by omega) h2]
        · by_cases hp : isPre openTag (c :: cs) = true
          · rw [hp]
            simp only [if_true]
            rw [h1, ih cs (by omega) h2]
          · simp only [Bool.not_eq_true] at hp
            rw [hp]
            simp only [Bool.false_eq_true, if_false]
            rw [ih cs (by omega) h2]
  intro l h
  exact main l.length l (le_refl _) h

theorem hasSpan_of_no_close : ∀ {l : List Char},
    afterFirst closeTag l = none → hasSpan l = false := by
  intro l
  induction l with
  | nil => intro _; rfl
  | cons c cs ih =>
    intro h
    obtain ⟨_, h2⟩ := afterFirst_cons_none h
    rw [hasSpan]
    have hdrop : afterFirst closeTag ((c :: cs).drop openTag.length) = none :=
      afterFirst_none_drop openTag.length h
    rw [hdrop, ih h2]
    simp

end Agent

namespace Agent

theorem dropWhile_head?_false {p : Char → Bool} {l : List Char} {x : Char}
    (h : (l.dropWhile p).head? = some x) : p x = false := by
  have hm := List.head?_dropWhile_not p l
  rw [h] at hm
  exact hm

theorem dropWhile_eq_self_of_head {p : Char → Bool} {l : List Char}
    (h : ∀ x, l.head? = some x → p x = false) : l.dropWhile p = l := by
  cases l with
  | nil => rfl
  | cons c cs =>
    have hc := h c rfl
    simp [List.dropWhile, hc]

theorem getLast?_dropWhile {p : Char → Bool} : ∀ {l : List Char},
    l.dropWhile p ≠ [] → (l.dropWhile p).getLast? = l.getLast? := by
  intro l
  induction l with
  | nil => intro h; simp [List.dropWhile] at h
  | cons c cs ih =>
    intro h
    by_cases hc : p c = true
    · have hrw : (c :: cs).dropWhile p = cs.dropWhile p := by simp [List.dropWhile, hc]
      rw [hrw] at h ⊢
      have hcs : cs ≠ [] := by
        intro hnil
        rw [hnil] at h
        exact h rfl
      obtain ⟨b, cs2, rfl⟩ : ∃ b cs2, cs = b :: cs2 := by
        cases cs with
        | nil => exact absurd rfl hcs
        | cons b cs2 => exact ⟨b, cs2, rfl⟩
      rw [List.getLast?_cons_cons]
      exact ih h
    · have hcf : p c = false := by simpa using hc
      simp [List.dropWhile, hcf]

theorem trim_of_ends {m : List Char}
    (h1 : ∀ x, m.head? = some x → pyWhite x = false)
    (h2 : ∀ x, m.getLast? = some x → pyWhite x = false) : trim m = m := by
  show ((m.dropWhile pyWhite).reverse.dropWhile pyWhite).reverse = m
  rw [dropWhile_eq_self_of_head h1]
  rw [dropWhile_eq_self_of_head (fun x hx => h2 x (by rwa [List.head?_reverse] at hx))]
  exact List.reverse_reverse m

theorem trim_idem (l : List Char) : trim (trim l) = trim l := by
  apply trim_of_ends
  · intro x hx
    simp only [trim] at hx
    rw [List.head?_reverse] at hx
    have hbne : (l.dropWhile pyWhite).reverse.dropWhile pyWhite ≠ [] := by
      intro hnil
      rw [hnil] at hx
      simp at hx
    rw [getLast?_dropWhile hbne, List.getLast?_reverse] at hx
    exact dropWhile_head?_false hx
  · intro x hx
    simp only [trim] at hx
    rw [List.getLast?_reverse] at hx
    exact dropWhile_head?_false hx

end Agent

namespace Agent

theorem extractActions_eq_filterMap (tcs : List ToolCall) :
    extractActions tcs =
      (tcs.filter (fun tc => validToolNames.contains tc.name)).map mkAction := by
  induction tcs with
  | nil => rfl
  | cons tc rest ih =>
    by_cases hm : tc.name ∈ validToolNames
    · have h : validToolNames.contains tc.name = true := by simpa using hm
      simp [extractActions, List.filter_cons, h, hm, ih]
    · have h : validToolNames.contains tc.name = false := by simpa using hm
      simp [extractActions, List.filter_cons, h, hm, ih]

theorem insertArg_notMem {a : ActionDict} {k : String} {v : Value}
    (h : ∀ q ∈ a, q.1 ≠ k) : insertArg a k v = a ++ [(k, v)] := by
  have hany : a.any (fun p => p.1 = k) = false := by
    rw [List.any_eq_false]
    intro q hq
    simpa using h q hq
  simp [insertArg, hany]

theorem mkAction_foldl : ∀ (args : List (String × Value)) (acc : ActionDict),
    (args.map Prod.fst).Nodup →
    (∀ q ∈ acc, ∀ kv ∈ args, q.1 ≠ kv.1) →
    args.foldl (fun action kv => if kv.2 = Value.vNull then action
        else insertArg action kv.1 (sanitizeArg kv.1 kv.2)) acc =
      acc ++ args.filterMap (fun kv => if kv.2 = Value.vNull then none
        else some (kv.1, sanitizeArg kv.1 kv.2)) := by
  intro args
  induction args with
  | nil => intro acc _ _; simp
  | cons kv rest ih =>
    intro acc hnd hdisj
    simp only [List.map_cons, List.nodup_cons] at hnd
    obtain ⟨hknotin, hndrest⟩ := hnd
    by_cases hnull : kv.2 = Value.vNull
    · simp only [List.foldl_cons, hnull, if_true]
      rw [ih acc hndrest (fun q hq kv2 hkv2 => hdisj q hq kv2 (List.mem_cons_of_mem kv hkv2))]
      simp [List.filterMap_cons, hnull]
    · simp only [List.foldl_cons]
      rw [if_neg hnull]
      rw [insertArg_notMem (fun q hq => hdisj q hq kv (List.mem_cons_self kv rest))]
      rw [ih (acc ++ [(kv.1, sanitizeArg kv.1 kv.2)]) hndrest ?hdisj2]
      case hdisj2 =>
        intro q hq kv2 hkv2
        rcases List.mem_append.mp hq with hq1 | hq2
        · exact hdisj q hq1 kv2 (List.mem_cons_of_mem kv hkv2)
        · have hq3 : q = (kv.1, sanitizeArg kv.1 kv.2) := by simpa using hq2
          rw [hq3]
          intro hcon
          apply hknotin
          have hcon2 : kv.1 = kv2.1 := hcon
          rw [hcon2]
          exact List.mem_map_of_mem Prod.fst hkv2
      rw [List.append_assoc]
      simp [List.filterMap_cons, hnull]

theorem mkAction_eq {tc : ToolCall}
    (hnd : (tc.args.map Prod.fst).Nodup)
    (hnt : "type" ∉ tc.args.map Prod.fst) :
    mkAction tc = ("type", Value.vStr tc.name.toList) ::
      tc.args.filterMap (fun kv => if kv.2 = Value.vNull then none
        else some (kv.1, sanitizeArg kv.1 kv.2)) := by
  show tc.args.foldl _ [("type", Value.vStr tc.name.toList)] = _
  rw [mkAction_foldl tc.args [("type", Value.vStr tc.name.toList)] hnd ?hd]
  case hd =>
    intro q hq kv hkv
    have hq1 : q = ("type", Value.vStr tc.name.toList) := by simpa using hq
    rw [hq1]
    intro hcon
    apply hnt
    have hcon2 : "type" = kv.1 := hcon
    rw [hcon2]
    exact List.mem_map_of_mem Prod.fst hkv
  simp

theorem foldl_hist : ∀ (hist : List HistEntry) (acc : List Msg),
    hist.foldl (fun msgs m => match convertHistEntry m with
      | some msg => msgs ++ [msg]
      | none => msgs) acc
    = acc ++ hist.filterMap convertHistEntry := by
  intro hist
  induction hist with
  | nil => intro acc; simp
  | cons h rest ih =>
    intro acc
    simp only [List.foldl_cons]
    cases hc : convertHistEntry h with
    | none =>
      simpa [List.filterMap_cons, hc] using ih acc
    | some m =>
      simpa [List.filterMap_cons, hc, List.append_assoc] using ih (acc ++ [m])

theorem buildMessages_eq (system_prompt : List Char) (hist : List HistEntry)
    (content : List Char) :
    buildMessages system_prompt hist content =
      Msg.system system_prompt :: (hist.filterMap convertHistEntry ++ [Msg.human content]) := by
  show (hist.foldl _ [Msg.system system_prompt]) ++ [Msg.human content] = _
  rw [foldl_hist hist [Msg.system system_prompt]]
  simp

theorem foldl_toolmsgs : ∀ (tcs : List ToolCall) (acc : List Msg),
    tcs.foldl (fun msgs tc => msgs ++ [Msg.toolMsg (executeTool tc.name tc.args) tc.call_id]) acc
      = acc ++ tcs.map (fun tc => Msg.toolMsg (executeTool tc.name tc.args) tc.call_id) := by
  intro tcs
  induction tcs with
  | nil => intro acc; simp
  | cons tc rest ih =>
    intro acc
    simp only [List.foldl_cons]
    rw [ih (acc ++ [Msg.toolMsg (executeTool tc.name tc.args) tc.call_id])]
    rw [List.append_assoc]
    simp

theorem toolResultMessages_eq_map (tcs : List ToolCall) :
    toolResultMessages tcs =
      tcs.map (fun tc => Msg.toolMsg (executeTool tc.name tc.args) tc.call_id) := by
  show tcs.foldl _ [] = _
  rw [foldl_toolmsgs tcs []]
  simp

theorem searchTime_of_contains {a b d e : Char} (ha : a.isDigit = true)
    (hb : b.isDigit = true) (hd : d.isDigit = true) (he : e.isDigit = true) :
    ∀ (pre post : List Char),
      searchTime (pre ++ (a :: b :: ':' :: d :: e :: post)) ≠ none := by
  intro pre
  induction pre with
  | nil =>
    intro post
    simp only [List.nil_append]
    rw [searchTime]
    rw [show matchTimeAt (a :: b :: ':' :: d :: e :: post) = some [a, b, ':', d, e] by
      simp [matchTimeAt, matchTwoDigit, ha, hb, hd, he]]
    simp
  | cons c pre' ih =>
    intro post
    simp only [List.cons_append]
    rw [searchTime]
    cases hm : matchTimeAt (c :: (pre' ++ (a :: b :: ':' :: d :: e :: post))) with
    | some m => simp
    | none => simpa using ih post

end Agent

namespace Agent

/-- C3: `_strip_thinking_tags` removes every span delimited by a paired
    thinking marker, non-greedily (each span ends at the first closing marker
    after its opening marker), across arbitrary multi-line text, and trims the
    result, so "<think>X</think>Y" normalizes to "Y"; when no closing marker
    exists after an opening marker the span is not removed, so unterminated
    "<think>X" is returned unchanged apart from whitespace trimming. -/
theorem C3_strip_thinking_tags_spec :
    (∀ x y : List Char, afterFirst closeTag x = none →
        strip_thinking_tags (openTag ++ x ++ (closeTag ++ y)) = strip_thinking_tags y)
    ∧ strip_thinking_tags "<think>X</think>Y".toList = "Y".toList
    ∧ (∀ s : List Char, afterFirst closeTag s = none → strip_thinking_tags s = trim s)
    ∧ strip_thinking_tags "<think>X".toList = "<think>X".toList := by
  refine ⟨?_, ?_, ?_, ?_⟩
  · intro x y hx
    show trim (subThink _) = trim (subThink y)
    rw [subThink_removes hx y]
  · decide
  · intro s hs
    show trim (subThink s) = trim s
    rw [subThink_id_of_no_span (hasSpan_of_no_close hs)]
  · decide

theorem C3_witness :
    (afterFirst closeTag "abc".toList = none ∧
      strip_thinking_tags (openTag ++ "abc".toList ++ (closeTag ++ "rest".toList)) =
        strip_thinking_tags "rest".toList)
    ∧ (afterFirst closeTag "<think>tail".toList = none ∧
      strip_thinking_tags "<think>tail".toList = trim "<think>tail".toList) :=
  ⟨⟨by decide, C3_strip_thinking_tags_spec.1 "abc".toList "rest".toList (by decide)⟩,
   ⟨by decide, C3_strip_thinking_tags_spec.2.2.1 "<think>tail".toList (by decide)⟩⟩

/-- C4 counterexample: normalization is not idempotent on every string.  On
    this input the single left-to-right substitution pass removes the inner
    span and thereby forms a new paired thinking span out of the remnants,
    which only a second application removes. -/
theorem C4_normalize_idempotent_cex :
    strip_thinking_tags (strip_thinking_tags "<thi<think>x</think>nk>y</think>z".toList) ≠
      strip_thinking_tags "<thi<think>x</think>nk>y</think>z".toList := by
  decide

/-- C4 amended: normalization is idempotent on every input whose normalized
    output contains no paired thinking span (in particular whenever the output
    has no closing marker at all); the unrestricted claim fails because one
    substitution pass can leave a newly-formed paired span. -/
theorem C4_normalize_idempotent_amended (s : List Char)
    (h : hasSpan (strip_thinking_tags s) = false) :
    strip_thinking_tags (strip_thinking_tags s) = strip_thinking_tags s := by
  show trim (subThink (strip_thinking_tags s)) = _
  rw [subThink_id_of_no_span h]
  show trim (trim (subThink s)) = trim (subThink s)
  exact trim_idem _

theorem C4_witness :
    hasSpan (strip_thinking_tags " <think>a</think> hello ".toList) = false ∧
    strip_thinking_tags (strip_thinking_tags " <think>a</think> hello ".toList) =
      strip_thinking_tags " <think>a</think> hello ".toList :=
  ⟨by decide, C4_normalize_idempotent_amended _ (by decide)⟩

end Agent

namespace Agent

theorem foldl_insert_head : ∀ (args : List (String × Value)) (v0 : Value) (t : ActionDict),
    (∀ kv ∈ args, kv.1 ≠ "type") →
    ∃ t2, args.foldl (fun action kv => if kv.2 = Value.vNull then action
        else insertArg action kv.1 (sanitizeArg kv.1 kv.2)) (("type", v0) :: t) =
      ("type", v0) :: t2 := by
  intro args
  induction args with
  | nil =>
    intro v0 t _
    exact ⟨t, rfl⟩
  | cons kv rest ih =>
    intro v0 t h
    have hk : kv.1 ≠ "type" := h kv (List.mem_cons_self kv rest)
    have hrest : ∀ kv2 ∈ rest, kv2.1 ≠ "type" :=
      fun kv2 h2 => h kv2 (List.mem_cons_of_mem kv h2)
    simp only [List.foldl_cons]
    by_cases hnull : kv.2 = Value.vNull
    · rw [if_pos hnull]
      exact ih v0 t hrest
    · rw [if_neg hnull]
      by_cases hany : (("type", v0) :: t).any (fun p => p.1 = kv.1) = true
      · have hcond : ¬ (("type", v0) : String × Value).1 = kv.1 := fun h2 => hk h2.symm
        simp only [insertArg, hany, if_true, List.map_cons, if_neg hcond]
        exact ih v0 _ hrest
      · have hanyf : (("type", v0) :: t).any (fun p => p.1 = kv.1) = false := by
          cases h2 : (("type", v0) :: t).any (fun p => p.1 = kv.1) with
          | false => rfl
          | true => exact absurd h2 hany
        simp only [insertArg, hanyf, Bool.false_eq_true, if_false, List.cons_append]
        exact ih v0 _ hrest

theorem mkAction_head {tc : ToolCall} (hnt : "type" ∉ tc.args.map Prod.fst) :
    ∃ t2, mkAction tc = ("type", Value.vStr tc.name.toList) :: t2 := by
  apply foldl_insert_head tc.args (Value.vStr tc.name.toList) []
  intro kv hkv hcon
  apply hnt
  rw [← hcon]
  exact List.mem_map_of_mem Prod.fst hkv

theorem extractActions_skip {tc : ToolCall} (h : validToolNames.contains tc.name = false) :
    ∀ (pre post : List ToolCall),
      extractActions (pre ++ tc :: post) = extractActions (pre ++ post) := by
  intro pre
  induction pre with
  | nil =>
    intro post
    have hm : tc.name ∉ validToolNames := by simpa using h
    simp [extractActions, h, hm]
  | cons p pre' ih =>
    intro post
    show (if validToolNames.contains p.name = true
        then mkAction p :: extractActions (pre' ++ (tc :: post))
        else extractActions (pre' ++ (tc :: post)))
      = (if validToolNames.contains p.name = true
        then mkAction p :: extractActions (pre' ++ post)
        else extractActions (pre' ++ post))
    rw [ih post]

/-- C2 counterexample: the claim "an action with an unrecognized kind is never
    forwarded" fails: a registered tool call carrying an argument itself keyed
    "type" overwrites the discriminator (Python dict assignment), so the
    extracted action is forwarded with an unregistered discriminator value. -/
theorem C2_unrecognized_kind_forwarded_cex :
    extractActions
      [{ name := "upsert_routine_item"
         args := [("title", Value.vStr "x".toList),
                  ("type", Value.vStr "delete_everything".toList)]
         call_id := "c1" }]
      = [[("type", Value.vStr "delete_everything".toList),
          ("title", Value.vStr "x".toList)]]
    ∧ validToolNames.contains "delete_everything" = false :=
  ⟨rfl, rfl⟩

/-- C2 amended: a tool call whose name is not registered yields zero actions
    and extraction is total (never raises); registered calls in the same reply
    are still converted, in order; and the extracted discriminator equals the
    registered tool name provided no argument of the call is itself keyed
    "type" (an argument keyed "type" with a non-null value overwrites the
    discriminator, see the counterexample). -/
theorem C2_hallucinated_tool_skipped :
    (∀ tcs : List ToolCall, extractActions tcs =
        (tcs.filter (fun tc => validToolNames.contains tc.name)).map mkAction)
    ∧ (∀ (pre post : List ToolCall) (tc : ToolCall),
        validToolNames.contains tc.name = false →
        extractActions (pre ++ tc :: post) = extractActions (pre ++ post))
    ∧ (∀ tc : ToolCall, "type" ∉ tc.args.map Prod.fst →
        (mkAction tc).lookup "type" = some (Value.vStr tc.name.toList)) := by
  refine ⟨extractActions_eq_filterMap, ?_, ?_⟩
  · intro pre post tc h
    exact extractActions_skip h pre post
  · intro tc hnt
    obtain ⟨t2, ht⟩ := mkAction_head hnt
    rw [ht]
    simp [List.lookup]

theorem C2_witness :
    (validToolNames.contains "delete_everything" = false ∧
      extractActions
        ([] ++ ({ name := "delete_everything", args := [], call_id := "c9" } : ToolCall) ::
          [{ name := "upsert_profile_field"
             args := [("key", Value.vStr "age".toList), ("value", Value.vStr "35".toList)]
             call_id := "c8" }])
        = extractActions
            ([] ++ [{ name := "upsert_profile_field"
                      args := [("key", Value.vStr "age".toList),
                               ("value", Value.vStr "35".toList)]
                      call_id := "c8" }]))
    ∧ ("type" ∉ ([("key", Value.vStr "age".toList),
                  ("value", Value.vStr "35".toList)].map Prod.fst) ∧
      (mkAction { name := "upsert_profile_field"
                  args := [("key", Value.vStr "age".toList),
                           ("value", Value.vStr "35".toList)]
                  call_id := "c8" }).lookup "type"
        = some (Value.vStr "upsert_profile_field".toList)) :=
  ⟨⟨by decide,
    C2_hallucinated_tool_skipped.2.1 [] _ _ (by decide)⟩,
   ⟨by decide,
    C2_hallucinated_tool_skipped.2.2 _ (by decide)⟩⟩

/-- C5 counterexample: the discriminator field of an extracted action is named
    "type", not "kind": the action derived from a registered profile-update
    call has a "type" entry and no "kind" entry at all. -/
theorem C5_discriminator_kind_cex :
    extractActions
      [{ name := "upsert_profile_field"
         args := [("key", Value.vStr "age".toList), ("value", Value.vStr "35".toList)]
         call_id := "c1" }]
      = [[("type", Value.vStr "upsert_profile_field".toList),
          ("key", Value.vStr "age".toList), ("value", Value.vStr "35".toList)]]
    ∧ ([("type", Value.vStr "upsert_profile_field".toList),
        ("key", Value.vStr "age".toList),
        ("value", Value.vStr "35".toList)] : ActionDict).lookup "kind" = none :=
  ⟨rfl, rfl⟩

/-- C5 amended: every action derived from a registered tool call is a dict
    whose discriminator field is named "type" (not "kind") and equals the tool
    name; the remaining fields are exactly the call's non-null arguments in
    order, with time-valued string arguments passed through the HH:MM
    sanitizer, and every null-valued argument omitted.  Stated for calls whose
    argument keys are distinct and do not include "type", as produced from the
    registered tool schemas. -/
theorem C5_action_shape_amended (tc : ToolCall)
    (hnd : (tc.args.map Prod.fst).Nodup)
    (hnt : "type" ∉ tc.args.map Prod.fst) :
    mkAction tc = ("type", Value.vStr tc.name.toList) ::
      tc.args.filterMap (fun kv => if kv.2 = Value.vNull then none
        else some (kv.1, sanitizeArg kv.1 kv.2)) :=
  mkAction_eq hnd hnt

theorem C5_witness :
    (([("title", Value.vStr "Run".toList), ("time", Value.vNull)].map
        (Prod.fst (α := String) (β := Value))).Nodup ∧
      "type" ∉ [("title", Value.vStr "Run".toList), ("time", Value.vNull)].map Prod.fst) ∧
    mkAction { name := "upsert_routine_item"
               args := [("title", Value.vStr "Run".toList), ("time", Value.vNull)]
               call_id := "c1" }
      = [("type", Value.vStr "upsert_routine_item".toList),
         ("title", Value.vStr "Run".toList)] :=
  ⟨⟨by decide, by decide⟩, by
    rw [C5_action_shape_amended _ (by decide) (by decide)]
    rfl⟩

/-- C6: for a tool-call argument keyed "time" whose string value contains an
    HH:MM pattern, the sanitizer replaces the value by the first extracted
    match — "at around <tag>14:30</tag> maybe" sanitizes to "14:30", also at
    the level of the emitted action — and a time value containing no matching
    pattern is passed through unmodified; a well-formed HH:MM pattern anywhere
    in the value guarantees a match is found. -/
theorem C6_time_sanitizer_spec :
    (∀ (v m : List Char), searchTime v = some m →
        sanitizeArg "time" (Value.vStr v) = Value.vStr m)
    ∧ (∀ v : List Char, searchTime v = none →
        sanitizeArg "time" (Value.vStr v) = Value.vStr v)
    ∧ (∀ (a b d e : Char) (pre post : List Char),
        a.isDigit = true → b.isDigit = true → d.isDigit = true → e.isDigit = true →
        searchTime (pre ++ (a :: b :: ':' :: d :: e :: post)) ≠ none)
    ∧ sanitizeArg "time" (Value.vStr "at around <tag>14:30</tag> maybe".toList)
        = Value.vStr "14:30".toList
    ∧ mkAction { name := "upsert_routine_item"
                 args := [("title", Value.vStr "Nap".toList),
                          ("time", Value.vStr "at around <tag>14:30</tag> maybe".toList)]
                 call_id := "c1" }
        = [("type", Value.vStr "upsert_routine_item".toList),
           ("title", Value.vStr "Nap".toList),
           ("time", Value.vStr "14:30".toList)] := by
  refine ⟨?_, ?_, ?_, ?_, ?_⟩
  · intro v m h
    simp [sanitizeArg, h]
  · intro v h
    simp [sanitizeArg, h]
  · intro a b d e pre post ha hb hd he
    exact searchTime_of_contains ha hb hd he pre post
  · rfl
  · rfl

theorem C6_witness :
    (searchTime "wake at 7:45 please".toList = some "7:45".toList ∧
      sanitizeArg "time" (Value.vStr "wake at 7:45 please".toList)
        = Value.vStr "7:45".toList)
    ∧ (searchTime "no time here".toList = none ∧
      sanitizeArg "time" (Value.vStr "no time here".toList)
        = Value.vStr "no time here".toList) :=
  ⟨⟨by decide, C6_time_sanitizer_spec.1 _ _ (by decide)⟩,
   ⟨by decide, C6_time_sanitizer_spec.2.1 _ (by decide)⟩⟩

end Agent

namespace Agent

/-- C7: when invoking an individual tool raises (embedded as `Except.error`),
    `_execute_tool` catches the exception and converts it into that tool's
    confirmation string as an error message "Error executing <name>: ...";
    being total, it propagates nothing, and the tool loop still processes
    every tool call: one result per call, in the original order, regardless
    of failures. -/
theorem C7_tool_execution_error_recovery :
    (∀ (name : String) (args : List (String × Value)) (e : List Char),
        validToolNames.contains name = true →
        invokeTool name args = Except.error e →
        executeTool name args =
          "Error executing ".toList ++ name.toList ++ ": ".toList ++ e)
    ∧ (∀ tcs : List ToolCall,
        toolResultMessages tcs =
          tcs.map (fun tc => Msg.toolMsg (executeTool tc.name tc.args) tc.call_id)
        ∧ (toolResultMessages tcs).length = tcs.length) := by
  constructor
  · intro name args e hv he
    have hm : name ∈ validToolNames := by simpa using hv
    simp [executeTool, hv, hm, he]
  · intro tcs
    refine ⟨toolResultMessages_eq_map tcs, ?_⟩
    rw [toolResultMessages_eq_map tcs]
    simp

theorem C7_witness :
    validToolNames.contains "upsert_routine_item" = true ∧
    invokeTool "upsert_routine_item" [] = Except.error "validation error".toList ∧
    executeTool "upsert_routine_item" [] =
      "Error executing ".toList ++ "upsert_routine_item".toList ++ ": ".toList ++
        "validation error".toList :=
  ⟨by decide, rfl,
    C7_tool_execution_error_recovery.1 "upsert_routine_item" [] _ (by decide) rfl⟩

/-- C8: the message sequence consumed by the model invocation is exactly one
    system-instruction message first, then the supplied history entries in
    their original order with every entry that is not a mapping, has empty
    text, or has a role other than user/assistant skipped (user entries
    becoming Human and assistant entries AI messages), then exactly one
    current-turn user message; no reordering is performed. -/
theorem C8_message_sequence_spec :
    (∀ (sys : List Char) (hist : List HistEntry) (text : List Char),
        buildMessages sys hist text =
          Msg.system sys :: (hist.filterMap convertHistEntry ++ [Msg.human text]))
    ∧ convertHistEntry HistEntry.notMapping = none
    ∧ (∀ (role : Option String) (txt : List Char),
        convertHistEntry (HistEntry.entry role txt) = none ↔
          (txt = [] ∨ (role ≠ some "user" ∧ role ≠ some "assistant")))
    ∧ (∀ txt : List Char, txt ≠ [] →
        convertHistEntry (HistEntry.entry (some "user") txt) = some (Msg.human txt)
        ∧ convertHistEntry (HistEntry.entry (some "assistant") txt) = some (Msg.ai txt)) := by
  refine ⟨buildMessages_eq, rfl, ?_, ?_⟩
  · intro role txt
    by_cases h1 : txt = []
    · simp [convertHistEntry, h1]
    · by_cases h2 : role = some "user"
      · simp [convertHistEntry, h1, h2]
      · by_cases h3 : role = some "assistant"
        · simp [convertHistEntry, h1, h2, h3]
        · simp [convertHistEntry, h1, h2, h3]
  · intro txt h
    constructor <;> simp [convertHistEntry, h]

theorem C8_witness :
    ("x".toList ≠ ([] : List Char)) ∧
    convertHistEntry (HistEntry.entry (some "user") "x".toList)
      = some (Msg.human "x".toList) ∧
    buildMessages "sys".toList
        [HistEntry.entry (some "user") "x".toList, HistEntry.notMapping] "go".toList
      = Msg.system "sys".toList ::
          ([HistEntry.entry (some "user") "x".toList, HistEntry.notMapping].filterMap
              convertHistEntry ++ [Msg.human "go".toList]) :=
  ⟨by decide, (C8_message_sequence_spec.2.2.2 "x".toList (by decide)).1,
    C8_message_sequence_spec.1 "sys".toList _ "go".toList⟩

end Agent

namespace Agent

/-- C1: whenever the initial reply carries one or more tool calls,
    `process_message` performs exactly one additional model invocation — two
    in total regardless of the number of tool calls; the returned action list
    is derived from the first reply's tool calls preserving their emission
    order (its registered calls converted in sequence); and tool calls of the
    second reply are ignored: only the second reply's normalizer-cleaned
    content becomes assistant_text, and any oracle agreeing with `llm` on the
    first reply and on reply contents everywhere yields an identical result
    whatever tool calls its second reply carries. -/
theorem C1_tool_loop_second_invocation
    (llm : List Msg → Reply) (sys : List Char) (hist : List HistEntry) (text : List Char)
    (h : (llm (buildMessages sys hist text)).tool_calls ≠ []) :
    (processMessage llm sys hist text).2 = 2
    ∧ (processMessage llm sys hist text).1.actions =
        ((llm (buildMessages sys hist text)).tool_calls.filter
          (fun tc => validToolNames.contains tc.name)).map mkAction
    ∧ (processMessage llm sys hist text).1.assistant_text =
        strip_thinking_tags (llm (buildMessages sys hist text
          ++ [Msg.aiCalls (llm (buildMessages sys hist text)).content
                (llm (buildMessages sys hist text)).tool_calls]
          ++ toolResultMessages (llm (buildMessages sys hist text)).tool_calls)).content
    ∧ (∀ llm2 : List Msg → Reply,
        llm2 (buildMessages sys hist text) = llm (buildMessages sys hist text) →
        (∀ ms : List Msg, (llm2 ms).content = (llm ms).content) →
        processMessage llm2 sys hist text = processMessage llm sys hist text) := by
  refine ⟨?_, ?_, ?_, ?_⟩
  · simp [processMessage, h]
  · simp [processMessage, h, extractActions_eq_filterMap]
  · simp [processMessage, h]
  · intro llm2 h1 h2
    simp only [processMessage]
    rw [h1]
    simp only [if_neg h]
    rw [h2]

theorem C1_witness :
    (demoLLM (buildMessages "sys".toList [] "hi".toList)).tool_calls ≠ [] ∧
    (processMessage demoLLM "sys".toList [] "hi".toList).2 = 2 :=
  ⟨by decide, (C1_tool_loop_second_invocation demoLLM "sys".toList [] "hi".toList
    (by decide)).1⟩

/-- C10: the tool loop appends exactly one tool-result message per tool call
    of the initial reply — for a call with an unregistered name the message
    carries the string "Unknown tool: <name>" — so the second model
    invocation occurs whenever the initial reply contains at least one tool
    call, even when every call is hallucinated, in which case the returned
    action list is empty. -/
theorem C10_tool_result_messages_spec :
    (∀ tcs : List ToolCall, (toolResultMessages tcs).length = tcs.length)
    ∧ (∀ (name : String) (args : List (String × Value)),
        validToolNames.contains name = false →
        executeTool name args = "Unknown tool: ".toList ++ name.toList)
    ∧ (∀ (llm : List Msg → Reply) (sys : List Char) (hist : List HistEntry)
        (text : List Char),
        (llm (buildMessages sys hist text)).tool_calls ≠ [] →
        (processMessage llm sys hist text).2 = 2)
    ∧ (∀ tcs : List ToolCall,
        (∀ tc ∈ tcs, validToolNames.contains tc.name = false) →
        extractActions tcs = []) := by
  refine ⟨?_, ?_, ?_, ?_⟩
  · intro tcs
    rw [toolResultMessages_eq_map]
    simp
  · intro name args hf
    have hm : name ∉ validToolNames := by simpa using hf
    simp [executeTool, hf, hm]
  · intro llm sys hist text h
    simp [processMessage, h]
  · intro tcs h
    rw [extractActions_eq_filterMap]
    have hnil : tcs.filter (fun tc => validToolNames.contains tc.name) = [] := by
      rw [List.filter_eq_nil_iff]
      intro a ha
      simpa using h a ha
    rw [hnil]
    rfl

theorem C10_witness :
    ((demoLLMBad (buildMessages "sys".toList [] "hi".toList)).tool_calls ≠ [] ∧
      (processMessage demoLLMBad "sys".toList [] "hi".toList).2 = 2)
    ∧ (validToolNames.contains "delete_everything" = false ∧
      executeTool "delete_everything" []
        = "Unknown tool: ".toList ++ "delete_everything".toList)
    ∧ ((∀ tc ∈ [({ name := "delete_everything", args := [], call_id := "c1" } : ToolCall)],
          validToolNames.contains tc.name = false) ∧
      extractActions [{ name := "delete_everything", args := [], call_id := "c1" }] = []) :=
  ⟨⟨by decide, C10_tool_result_messages_spec.2.2.1 demoLLMBad "sys".toList [] "hi".toList
      (by decide)⟩,
   ⟨by decide, C10_tool_result_messages_spec.2.1 "delete_everything" [] (by decide)⟩,
   ⟨by decide, C10_tool_result_messages_spec.2.2.2 _ (by decide)⟩⟩

end Agent

namespace Agent

/-- C9: when model output contains a fenced code block (triple-marker,
    optionally tagged json), the decoder extracts the first such block's inner
    content as the JSON candidate — the extraction being the metrics.py
    split-based one — preferring it over any surrounding prose; and only when
    no parseable fenced-block or whole-text candidate exists does decoding
    fall back to the entire text as a plain-text assistant message with an
    empty action list. -/
theorem C9_decoder_precedence_spec :
    (∀ (pre inner post : List Char),
        Char.ofNat 96 ∉ pre → Char.ofNat 96 ∉ inner →
        extractFenced (pre ++ jsonFence ++ inner ++ fence ++ post) = inner)
    ∧ (∀ (parseJson : List Char → Option AgentResult) (text : List Char) (r : AgentResult),
        (afterFirst fence text).isSome = true →
        parseJson (trim (extractFenced text)) = some r →
        decodePayload parseJson text = r)
    ∧ (∀ (parseJson : List Char → Option AgentResult) (text : List Char),
        ((afterFirst fence text).isSome = true →
          parseJson (trim (extractFenced text)) = none) →
        ((trim text).head? = some (Char.ofNat 123) → parseJson (trim text) = none) →
        decodePayload parseJson text = { assistant_text := text, actions := [] }) := by
  refine ⟨?_, ?_, ?_⟩
  · intro pre inner post hpre hinner
    have hj : jsonFence = Char.ofNat 96 :: "``json".toList := by decide
    have hfc : fence = Char.ofNat 96 :: "``".toList := by decide
    have hassoc : pre ++ jsonFence ++ inner ++ fence ++ post
        = pre ++ (jsonFence ++ (inner ++ (fence ++ post))) := by
      simp [List.append_assoc]
    have h1 : afterFirst jsonFence (pre ++ (jsonFence ++ (inner ++ (fence ++ post))))
        = some (inner ++ (fence ++ post)) := by
      rw [hj]
      exact afterFirst_append_notMem hpre
    have h2 : upToFirst fence (inner ++ (fence ++ post)) = inner := by
      rw [hfc]
      exact upToFirst_append_notMem hinner
    rw [hassoc]
    simp only [extractFenced, h1]
    exact h2
  · intro parseJson text r hf hp
    simp [decodePayload, hf, hp]
  · intro parseJson text h1 h2
    by_cases hf : (afterFirst fence text).isSome = true
    · have hp1 := h1 hf
      by_cases hb : (trim text).head? = some (Char.ofNat 123)
      · have hp2 := h2 hb
        simp [decodePayload, hf, hp1, hb, hp2]
      · simp [decodePayload, hf, hp1, hb]
    · have hff : (afterFirst fence text).isSome = false := by simpa using hf
      by_cases hb : (trim text).head? = some (Char.ofNat 123)
      · have hp2 := h2 hb
        simp [decodePayload, hff, hb, hp2]
      · simp [decodePayload, hff, hb]

theorem C9_witness :
    ((Char.ofNat 96 ∉ "see ".toList ∧ Char.ofNat 96 ∉ "payload".toList) ∧
      extractFenced ("see ".toList ++ jsonFence ++ "payload".toList ++ fence ++ " end".toList)
        = "payload".toList)
    ∧ ((afterFirst fence "see ```jsonpayload``` end".toList).isSome = true ∧
      demoParse (trim (extractFenced "see ```jsonpayload``` end".toList))
        = some { assistant_text := "hi".toList, actions := [] } ∧
      decodePayload demoParse "see ```jsonpayload``` end".toList
        = { assistant_text := "hi".toList, actions := [] }) :=
  ⟨⟨⟨by decide, by decide⟩,
    C9_decoder_precedence_spec.1 "see ".toList "payload".toList " end".toList
      (by decide) (by decide)⟩,
   ⟨by decide, by decide,
    C9_decoder_precedence_spec.2.1 demoParse "see ```jsonpayload``` end".toList
      { assistant_text := "hi".toList, actions := [] } (by decide) (by decide)⟩⟩

end Agent
